import Mathlib

/-!
Verification development for the `pymax` source-hygiene pipeline
(`src/pymax.py`).  File texts are shallowly embedded as `List Char`
(called `Text`), identifiers as `String`.  Python standard-library
behaviour that the program relies on (`str.splitlines`, `str.rstrip`,
`difflib`, regular expressions) is embedded as executable Lean
functions; external optional libraries (`black`, `libcst`) and the
CPython parser `ast.parse` are modelled as oracle fields of an `Env`
structure, since their code is not part of the repository.
-/

/-- File contents are modelled as lists of characters. -/
abbrev Text := List Char

/-- The characters Python's `str.splitlines` treats as line boundaries
(the Unicode set used by CPython). -/
def isLineBoundary (c : Char) : Bool :=
  c == '\n' || c == '\r' || c == '\x0b' || c == '\x0c' ||
  c == '\x1c' || c == '\x1d' || c == '\x1e' || c == '\u0085' ||
  c == '\u2028' || c == '\u2029'

/-- Accumulator-based worker for `pySplitlines`: `acc` holds the
current (reversed) line.  A `"\r\n"` pair counts as a single break. -/
def pySplitlinesAux : List Char → List Char → List Text
  | [], acc => if acc.isEmpty then [] else [acc.reverse]
  | [c], acc =>
    if isLineBoundary c then [acc.reverse] else [(c :: acc).reverse]
  | c :: d :: cs, acc =>
    if isLineBoundary c then
      if c == '\r' && d == '\n' then acc.reverse :: pySplitlinesAux cs []
      else acc.reverse :: pySplitlinesAux (d :: cs) []
    else
      pySplitlinesAux (d :: cs) (c :: acc)

/-- Python `text.splitlines()`. -/
def pySplitlines (t : Text) : List Text :=
  pySplitlinesAux t []

/-- Python `"\n".join(lines)`. -/
def joinNL : List Text → Text
  | [] => []
  | [x] => x
  | x :: y :: xs => x ++ '\n' :: joinNL (y :: xs)

/-- Python `ln.rstrip("\r\n")`: drop trailing carriage returns and
newlines (and nothing else — in particular no spaces or tabs). -/
def pyRstripCRLF (l : Text) : Text :=
  (l.reverse.dropWhile (fun c => c == '\r' || c == '\n')).reverse

/-- A space or a tab, the class `[ \t]` of the indentation regexes. -/
def isSpaceTab (c : Char) : Bool := c == ' ' || c == '\t'

/-- The leading run of spaces and tabs of a line
(`re.match(r"^([ \t]+)", ln)`). -/
def leadingWs (l : Text) : Text := l.takeWhile isSpaceTab

/-- `re.sub(r"^\t+", lambda mo: " " * (4 * len(mo.group(0))), ln)`:
replace the leading run of tabs by four spaces per tab. -/
def expandLeadingTabs (l : Text) : Text :=
  List.replicate (4 * (l.takeWhile (· == '\t')).length) ' ' ++
    l.dropWhile (· == '\t')

/-- The per-line text transformation of `normalize_whitespace`:
`rstrip("\r\n")`, then tab expansion when the leading whitespace run
contains a tab. -/
def gLine (l : Text) : Text :=
  let l1 := pyRstripCRLF l
  if (leadingWs l1).any (· == '\t') then expandLeadingTabs l1 else l1

/-- Diagnostics produced by `normalize_whitespace` for the 1-based
line number `i` and line `ln`. -/
def lineMsgs (i : Nat) (ln : Text) : List String :=
  (if pyRstripCRLF ln ≠ ln then
    ["Line " ++ toString i ++ ": trailing whitespace removed"] else []) ++
  (if (leadingWs (pyRstripCRLF ln)).any (· == '\t') then
    ["Line " ++ toString i ++ ": converted leading tabs to spaces"] else [])

/-- `normalize_whitespace(text)` from `src/pymax.py` (text part and
message part; the source computes both in one loop over
`text.splitlines()`, which we split into a map for the text and a pass
for the messages).  Returns `(new_text, msgs)`. -/
def normalizeWhitespace (text : Text) : Text × List String :=
  let lines := pySplitlines text
  (joinNL (lines.map gLine) ++
      (if text.getLast? == some '\n' then ['\n'] else []),
   (List.enumFrom 1 lines).flatMap (fun p => lineMsgs p.1 p.2))

/-! ## Syntax-tree model

A closed variant type for the Python AST nodes the pipeline inspects
(`ast.Name`, `ast.Attribute`, `ast.Assign`, `ast.AnnAssign`,
`ast.Import`, `ast.ImportFrom`, `ast.FunctionDef`); every other node
kind is represented by `other` with its child list.  Import clauses
are `(name, optional alias)` pairs. -/

inductive Ast where
  | module (body : List Ast)
  | importStmt (names : List (String × Option String))
  | importFrom (mod : Option String) (names : List (String × Option String))
  | functionDef (nm : String) (body : List Ast)
  | assign (targets : List Ast) (value : Ast)
  | annAssign (target : Ast) (value : Ast)
  | exprStmt (value : Ast)
  | call (func : Ast) (args : List Ast)
  | attribute (value : Ast) (attr : String)
  | name (id : String)
  | const
  | other (children : List Ast)

mutual
/-- All nodes of a tree, root first.  `ast.walk` enumerates the same
nodes breadth-first; every consumer in the program only uses the
multiset of nodes (counters and sets), so the enumeration order is
irrelevant and a preorder listing is used. -/
def astNodes : Ast → List Ast
  | .module b => .module b :: astNodesList b
  | .importStmt ns => [.importStmt ns]
  | .importFrom m ns => [.importFrom m ns]
  | .functionDef nm b => .functionDef nm b :: astNodesList b
  | .assign ts v => .assign ts v :: (astNodesList ts ++ astNodes v)
  | .annAssign t v => .annAssign t v :: (astNodes t ++ astNodes v)
  | .exprStmt v => .exprStmt v :: astNodes v
  | .call f args => .call f args :: (astNodes f ++ astNodesList args)
  | .attribute v a => .attribute v a :: astNodes v
  | .name s => [.name s]
  | .const => [.const]
  | .other cs => .other cs :: astNodesList cs

def astNodesList : List Ast → List Ast
  | [] => []
  | t :: ts => astNodes t ++ astNodesList ts
end

/-- `name.split(".")[0]`: the part before the first dot. -/
def headSeg (s : String) : String := ⟨s.data.takeWhile (· != '.')⟩

/-- The counters gathered by `IdentifierCollector`.  Each `Counter` is
modelled by the list of occurrences it counted (so a count is a
`List.count`), each set by a list of the elements added. -/
structure Collector where
  namesOcc : List String
  attrOcc : List String
  assignedOcc : List String
  importRoots : List String
  funcDefOcc : List String

/-- `IdentifierCollector().visit(tree)`.  `visit_Name` counts every
`Name` id; `visit_Attribute` counts `node.attr` (in the source,
`node.attr` is a plain string, so the two `isinstance` branches are
dead and the `getattr(node.attr, "id", str(node.attr))` fallback
counts exactly the attribute string); `visit_Assign`/`visit_AnnAssign`
count `Name` targets; `visit_Import`/`visit_ImportFrom` add first
dotted segments to the import set; `visit_FunctionDef` counts the
function name.  Every visitor recurses via `generic_visit`, so the
occurrence lists range over all nodes of the tree. -/
def collect (t : Ast) : Collector :=
  let ns := astNodes t
  { namesOcc := ns.filterMap (fun n => match n with
      | .name s => some s | _ => none)
    attrOcc := ns.filterMap (fun n => match n with
      | .attribute _ a => some a | _ => none)
    assignedOcc := ns.flatMap (fun n => match n with
      | .assign ts _ => ts.filterMap (fun x => match x with
          | .name s => some s | _ => none)
      | .annAssign (.name s) _ => [s]
      | _ => [])
    importRoots := ns.flatMap (fun n => match n with
      | .importStmt nms => nms.map (fun p => headSeg p.1)
      | .importFrom m nms =>
          (match m with | some ms => [headSeg ms] | none => []) ++
          nms.filterMap (fun p =>
            if p.1 = "*" then none else some (headSeg p.1))
      | _ => [])
    funcDefOcc := ns.filterMap (fun n => match n with
      | .functionDef s _ => some s | _ => none) }

/-- The locally bound names introduced by import statements, in the
order `detect_unused_imports` gathers them (`asname or
name.split(".")[0]` for `import`, `asname or name` for
`from-import`, `*` skipped). -/
def importsOf (t : Ast) : List String :=
  (astNodes t).flatMap (fun n => match n with
    | .importStmt nms => nms.map (fun p => p.2.getD (headSeg p.1))
    | .importFrom _ nms => nms.filterMap (fun p =>
        if p.1 = "*" then none else some (p.2.getD p.1))
    | _ => [])

/-- The set of all plain `Name` references in the tree (the `used`
set of `detect_unused_imports`). -/
def usedNamesOf (t : Ast) : List String :=
  (astNodes t).filterMap (fun n => match n with
    | .name s => some s | _ => none)

/-- `detect_unused_imports(tree)`: imported names that never occur as
a plain `Name` node. -/
def detectUnusedImports (t : Ast) : List String :=
  (importsOf t).filter (fun i => !(usedNamesOf t).contains i)

/-! ## difflib embedding

`detect_identifier_typos` relies on `difflib.get_close_matches`, i.e.
on `SequenceMatcher.ratio`.  The identifiers involved are short ASCII
strings, so `SequenceMatcher`'s junk and autojunk machinery is inert
(autojunk only acts on sequences of 200+ elements) and is omitted.
`quick_ratio`/`real_quick_ratio` are upper bounds of `ratio` used only
as pre-filters in `get_close_matches`, so filtering by `ratio` alone
is equivalent.  Ratios are computed in `ℚ`; for the short names
compared here the rational comparisons agree with CPython's float
comparisons (a disagreement would need `2*M/T` within `1e-16` of the
cutoff without being equal to it). -/

/-- Positions of character `c` in `b` inside `[blo, bhi)` (ascending),
as enumerated from `b2j` in `SequenceMatcher.find_longest_match`. -/
def posnsIn (b : List Char) (c : Char) (blo bhi : Nat) : List Nat :=
  (List.range b.length).filter (fun j =>
    decide (blo ≤ j) && decide (j < bhi) && (b.getD j ' ' == c))

/-- `SequenceMatcher.find_longest_match(alo, ahi, blo, bhi)` with no
junk: returns `(besti, bestj, bestsize)`.  `j2len` maps a position
`j` in `b` to the length of the longest match ending at `(i, j)`. -/
def flm (a b : List Char) (alo ahi blo bhi : Nat) : Nat × Nat × Nat :=
  (((List.range' alo (ahi - alo)).foldl
    (fun (st : (Nat × Nat × Nat) × List (Nat × Nat)) i =>
      let js := posnsIn b (a.getD i ' ') blo bhi
      let newPairs := js.map (fun j =>
        (j, (if j = 0 then 0 else (st.2.lookup (j - 1)).getD 0) + 1))
      (newPairs.foldl (fun bb p =>
        if p.2 > bb.2.2 then (i + 1 - p.2, p.1 + 1 - p.2, p.2) else bb)
        st.1,
       newPairs))
    ((alo, blo, 0), [])).1)

/-- Total size of the matching blocks of
`SequenceMatcher.get_matching_blocks`, computed with fuel (the queue
recursion splits a strictly smaller interval on each side, so
`a.length + b.length + 1` steps always suffice). -/
def matchTotalFuel (a b : List Char) :
    Nat → Nat × Nat → Nat × Nat → Nat
  | 0, _, _ => 0
  | fuel + 1, (alo, ahi), (blo, bhi) =>
    match flm a b alo ahi blo bhi with
    | (i, j, k) =>
      if k = 0 then 0
      else k + matchTotalFuel a b fuel (alo, i) (blo, j) +
           matchTotalFuel a b fuel (i + k, ahi) (j + k, bhi)

/-- Sum of the sizes of all matching blocks of `a` and `b`. -/
def matchTotal (a b : List Char) : Nat :=
  matchTotalFuel a b (a.length + b.length + 1) (0, a.length) (0, b.length)

/-- `SequenceMatcher(None, a, b).ratio()` as an exact fraction
`(numerator, denominator)`: `2*M / (len(a)+len(b))`, and `1.0`
(encoded `(1, 1)`) for two empty sequences.  Fractions are kept
unreduced and compared by cross-multiplication, which agrees with
CPython's float comparisons for the short identifiers involved. -/
def ratioPair (a b : List Char) : Nat × Nat :=
  if a.length + b.length = 0 then (1, 1)
  else (2 * matchTotal a b, a.length + b.length)

/-- Fraction comparison `q ≤ p` by cross-multiplication (both
denominators are positive). -/
def ratioGe (p q : Nat × Nat) : Bool :=
  decide (q.1 * p.2 ≤ p.1 * q.2)

/-- The ratio as a rational number, for specification statements. -/
def ratioQ (a b : List Char) : ℚ :=
  ((ratioPair a b).1 : ℚ) / ((ratioPair a b).2 : ℚ)

/-- Insertion step of an insertion sort: `le x y` means `x` may be
placed before `y`. -/
def insertBy {α : Type} (le : α → α → Bool) (a : α) : List α → List α
  | [] => [a]
  | b :: t => if le a b then a :: b :: t else b :: insertBy le a t

/-- Insertion sort (used to model `heapq.nlargest`'s ordering: the
scored pairs are totally ordered because the names are distinct, so
any comparison sort agrees with it). -/
def sortByBool {α : Type} (le : α → α → Bool) (l : List α) : List α :=
  l.foldr (insertBy le) []

/-- Code-point lexicographic order on character lists, Python's
string ordering. -/
def strLtData : List Char → List Char → Bool
  | [], [] => false
  | [], _ :: _ => true
  | _ :: _, [] => false
  | a :: as, b :: bs =>
    if a.toNat < b.toNat then true
    else if b.toNat < a.toNat then false
    else strLtData as bs

/-- Python `s1 < s2` on strings. -/
def pyStrLt (a b : String) : Bool := strLtData a.data b.data

/-- Descending order on `(ratio, name)` pairs, ties on the ratio
broken by the larger string first, as `heapq.nlargest` orders
tuples (ratios compared by cross-multiplication). -/
def pairDesc (p q : (Nat × Nat) × String) : Bool :=
  decide (q.1.1 * p.1.2 < p.1.1 * q.1.2) ||
  (decide (p.1.1 * q.1.2 = q.1.1 * p.1.2) && !(pyStrLt p.2 q.2))

/-- `difflib.get_close_matches(word, possibilities, n, cutoff)`:
keep the possibilities whose ratio against `word` reaches the cutoff
(`ratio(x, word)`, i.e. `x` as `seq1` and `word` as `seq2`), take the
`n` largest by `(ratio, name)` and return the names. -/
def getCloseMatches (word : String) (possibilities : List String)
    (n : Nat) (cutoff : Nat × Nat) : List String :=
  let scored := possibilities.filterMap (fun x =>
    let r := ratioPair x.data word.data
    if ratioGe r cutoff then some (r, x) else none)
  ((sortByBool pairDesc scored).take n).map (fun p => p.2)

/-! ## Typo detector -/

/-- Worker for `dedupFirst`: drop elements seen before. -/
def dedupFirstAux {α : Type} [DecidableEq α] (seen : List α) :
    List α → List α
  | [] => []
  | x :: xs =>
    if x ∈ seen then dedupFirstAux seen xs
    else x :: dedupFirstAux (x :: seen) xs

/-- Duplicate removal keeping first occurrences, the key order of a
Python `Counter`/`dict`. -/
def dedupFirst {α : Type} [DecidableEq α] (l : List α) : List α :=
  dedupFirstAux [] l

/-- Items `(key, value)` of the `Counter` of an occurrence list, in
key insertion order. -/
def counterItems (occ : List String) : List (String × Nat) :=
  (dedupFirst occ).map (fun n => (n, occ.count n))

/-- Python dict merge `{**a, **b}`: keys of `a` in order with values
overridden by `b`, then the keys of `b` not in `a`. -/
def dictMerge (a b : List (String × Nat)) : List (String × Nat) :=
  a.map (fun p => (p.1, (b.lookup p.1).getD p.2)) ++
  b.filter (fun p => !(a.map Prod.fst).contains p.1)

/-- `all_counts = {**collector.names, **collector.attr_names}` of
`detect_identifier_typos`. -/
def allCountsOf (c : Collector) : List (String × Nat) :=
  dictMerge (counterItems c.namesOcc) (counterItems c.attrOcc)

/-- `all_counts.get(n, 0)`: the count the typo detector compares. -/
def typoCount (c : Collector) (n : String) : Nat :=
  ((allCountsOf c).lookup n).getD 0

/-- Python `str.islower()` over ASCII: at least one letter and no
uppercase letter. -/
def pyIslower (s : String) : Bool :=
  s.data.any (fun c => c.isAlpha) && s.data.all (fun c => !c.isUpper)

/-- Ascending `sorted` for strings (code-point lexicographic, as in
Python). -/
def sortStrings (l : List String) : List String :=
  sortByBool (fun a b => !(pyStrLt b a)) l

/-- The similarity cutoff `0.85` of `detect_identifier_typos`, as a
fraction for computation and as a rational for statements. -/
def typoCutoffPair : Nat × Nat := (17, 20)

/-- The cutoff `0.85` as a rational number. -/
def typoCutoff : ℚ := 17 / 20

/-- Python dict assignment `d[k] = v`: replace in place or append. -/
def upsert (l : List (String × String)) (k v : String) :
    List (String × String) :=
  match l with
  | [] => [(k, v)]
  | p :: t => if p.1 = k then (k, v) :: t else p :: upsert t k v

/-- `uniq = sorted(set(all_names))` of `detect_identifier_typos`:
the keys of the two counters, deduplicated and sorted. -/
def typoUniq (c : Collector) : List String :=
  sortStrings (dedupFirst (dedupFirst c.namesOcc ++ dedupFirst c.attrOcc))

/-- The loop body of `detect_identifier_typos` for one `name`: visit
its five closest matches; a match that is distinct, whose merged
count exceeds 1.5 times the name's (`2*count(m) > 3*count(name)`,
exact for integer counts), with both lengths at least 2 and both
names `islower`, is recorded as `candidates[name] = m` (a later
match overwrites an earlier one). -/
def typoConsider (c : Collector) (uniq : List String)
    (cands : List (String × String)) (nm : String) :
    List (String × String) :=
  (getCloseMatches nm uniq 5 typoCutoffPair).foldl (fun cands2 m =>
    if m = nm then cands2
    else if typoCount c nm * 3 < typoCount c m * 2 then
      if nm.length ≤ 1 ∨ m.length ≤ 1 then cands2
      else if pyIslower nm && pyIslower m then upsert cands2 nm m
      else cands2
    else cands2) cands

/-- `detect_identifier_typos(collector, threshold=0.85)`. -/
def detectIdentifierTypos (c : Collector) : List (String × String) :=
  (typoUniq c).foldl (typoConsider c (typoUniq c)) []

/-! ## Import-removal rewrite (regex model)

`process_file` removes unused imports with two `re.sub` calls per
name, each with `re.MULTILINE`, patterns
`^\s*(from\s+[^\n]+\s+import\s+.*\bNAME\b.*)$` and
`^\s*(import\s+.*\bNAME\b.*)$`, replacement `""`.  Under
`re.MULTILINE`, `^` matches at the start of the text and after each
`'\n'`, `$` at the end of the text and before each `'\n'`, and `\s`
also matches `'\n'` itself, so a single match is not confined to one
physical line: the leading `\s*` swallows any run of preceding blank
or whitespace-only lines, and every internal `\s+` of the pattern may
cross a newline as well, joining several physical lines into one
match (only `[^\n]+` and `.*` are line-bound).  The model below
mirrors the backtracking engine directly: at each `^` position the
greedy quantifiers try their longest extents first, the first
complete assignment wins, the whole match is replaced by the empty
string, and scanning resumes at the match end (matches are never
empty, since a match contains at least the literal `import`). -/

/-- Python regex word character `\w` (ASCII range). -/
def isWordChar (c : Char) : Bool := c.isAlphanum || c == '_'

/-- Python regex whitespace `\s` (ASCII range): note that it matches
`'\n'` too, which is what lets the patterns' whitespace quantifiers
cross line boundaries under `re.MULTILINE`. -/
def isPySpace (c : Char) : Bool :=
  c == ' ' || c == '\t' || c == '\n' || c == '\x0b' || c == '\x0c' ||
  c == '\r'

/-- Whether `\bname\b` matches somewhere in `t` (for `name` made of
word characters, as all identifiers here are). -/
def containsWord (name : String) (t : Text) : Bool :=
  (List.range (t.length + 1)).any (fun i =>
    name.data.isPrefixOf (t.drop i) &&
    (decide (i = 0) || !isWordChar (t.getD (i - 1) ' ')) &&
    !isWordChar (t.getD (i + name.length) ' '))

/-- The current physical line of `t`: its characters up to (not
including) the first `'\n'`. -/
def lineTake (t : Text) : Text := t.takeWhile (fun c => c != '\n')

/-- The rest of `t` from its first `'\n'` on (empty when `t` has no
newline): what follows the current physical line. -/
def lineDrop (t : Text) : Text := t.dropWhile (fun c => c != '\n')

/-- The extents `[k, k-1, …, 1]` a greedy `\s+` or `[^\n]+` whose
maximal run has length `k` tries while backtracking, longest
first. -/
def decLens (k : Nat) : List Nat :=
  (List.range k).reverse.map (fun i => i + 1)

/-- The first success of `f` over the candidate extents: the
backtracking engine keeps the first assignment that lets the rest of
the pattern match. -/
def firstSome (f : Nat → Option Text) : List Nat → Option Text
  | [] => none
  | k :: ks =>
    match f k with
    | some r => some r
    | none => firstSome f ks

/-- Engine behaviour of the pattern tail `\s+.*\bname\b.*$` starting
at `d`: the `\s+` takes some non-empty extent of the whitespace run
at `d` (which may cross newlines, greedy extents tried first); both
`.*` are confined to the physical line then reached, and `$` matches
at that line's end, so a successful match ends exactly at the first
`'\n'` after the chosen extent (or at the end of the text).  Returns
the rest of the text after the match end, or `none`.  (Whichever
same-line extent succeeds, the match end is the same line end, so the
engine's greedy order only affects which extents are examined.) -/
def tailEnd (name : String) (d : Text) : Option Text :=
  firstSome (fun w =>
    if containsWord name (lineTake (d.drop w)) then
      some (lineDrop (d.drop w))
    else none)
    (decLens (d.takeWhile isPySpace).length)

/-- Engine behaviour of the kernel `import\s+.*\bname\b.*$` at `m`
(the first non-whitespace position at or after a `^` position):
the suffix of the text after the match end on success. -/
def plainEnd (name : String) (m : Text) : Option Text :=
  if "import".data.isPrefixOf m then tailEnd name (m.drop 6) else none

/-- Engine behaviour of the kernel
`from\s+[^\n]+\s+import\s+.*\bname\b.*$` at `m`: the nested
`firstSome` loops mirror the backtracking order (each greedy
quantifier tries its longest extent first, earlier quantifiers
varying slowest, first complete assignment wins).  Every `\s+` may
cross newlines while `[^\n]+` may not, so one match can join several
physical lines. -/
def fromEnd (name : String) (m : Text) : Option Text :=
  if "from".data.isPrefixOf m then
    firstSome (fun w1 =>
      firstSome (fun nn =>
        firstSome (fun w2 =>
          if "import".data.isPrefixOf (((m.drop (4 + w1)).drop nn).drop w2)
          then tailEnd name ((((m.drop (4 + w1)).drop nn).drop w2).drop 6)
          else none)
          (decLens (((m.drop (4 + w1)).drop nn).takeWhile
            isPySpace).length))
        (decLens (lineTake (m.drop (4 + w1))).length))
      (decLens ((m.drop 4).takeWhile isPySpace).length)
  else none

/-- Split on `'\n'` (always one more part than there are newlines,
like Python `str.split("\n")`). -/
def splitNL : Text → List Text
  | [] => [[]]
  | c :: cs =>
    if c = '\n' then [] :: splitNL cs
    else match splitNL cs with
      | h :: t => (c :: h) :: t
      | [] => [[c]]

/-- One `re.sub(pat, "", text, flags=re.MULTILINE)` step with
`pat = ^\s*(KERNEL)$`, `t` sitting at a `^` position (a line start).
The leading `\s*` greedily takes the whole whitespace run there —
swallowing any preceding blank or whitespace-only lines — and the
kernel must begin at the first non-whitespace character (the kernel
starts with a letter, so no shorter extent of `\s*` can help).  On a
match the whole span up to the match end (a line end) is replaced by
the empty string and scanning resumes after it: the `'\n'` at the
match end survives and the next `^` position follows it.  Without a
match the current line is kept and scanning moves past its `'\n'`.
Fuel bounds the recursion; `t.length + 1` always suffices because
every step emits or discards at least one character of `t`. -/
def reSubM (kend : Text → Option Text) : Nat → Text → Text
  | 0, t => t
  | fuel + 1, t =>
    match kend (t.dropWhile isPySpace) with
    | some r =>
      match r with
      | [] => []
      | c :: rs => c :: reSubM kend fuel rs
    | none =>
      match lineDrop t with
      | [] => t
      | c :: rs => lineTake t ++ c :: reSubM kend fuel rs

/-- `re.sub(pat, "", text, flags=re.MULTILINE)` for the two import
patterns: scan from the start of the text with enough fuel. -/
def reSub (kend : Text → Option Text) (t : Text) : Text :=
  reSubM kend (t.length + 1) t

/-- The fix-mode unused-import removal loop of `process_file`: for
each unused name, substitute the from-import pattern away, then the
plain-import pattern. -/
def removeUnusedImportsText (t : Text) (unused : List String) : Text :=
  unused.foldl (fun txt nm =>
    reSub (plainEnd nm) (reSub (fromEnd nm) txt)) t

/-! ## Lint stage of `process_file` -/

/-- The set `leading_patterns` of distinct non-empty leading
whitespace runs of the file's lines (first-occurrence order; Python
set iteration order is unspecified and only the derived message text
depends on it). -/
def leadingPatternsOf (t : Text) : List Text :=
  dedupFirst ((pySplitlines t).filterMap (fun ln =>
    let p := leadingWs ln
    if p.isEmpty then none else some p))

/-- Whether the file-level mixed-indentation warning fires:
some collected pattern contains a tab and some collected pattern
contains a space. -/
def mixedIndentEmitted (t : Text) : Bool :=
  (leadingPatternsOf t).any (fun p => p.any (· == '\t')) &&
  (leadingPatternsOf t).any (fun p => p.any (· == ' '))

/-- `indent_counts`: the counter over `p.count(" ")` of the collected
patterns, zero widths skipped. -/
def indentWidthItems (t : Text) : List (Nat × Nat) :=
  let ws := ((leadingPatternsOf t).map (fun p => p.count ' ')).filter (· ≠ 0)
  (dedupFirst ws).map (fun w => (w, ws.count w))

/-- `indent_counts.most_common(1)[0][0]`: the first width attaining
the maximal count. -/
def mostCommonWidth (items : List (Nat × Nat)) : Nat :=
  (items.foldl (fun best p => if p.2 > best.2 then p else best) (0, 0)).1

/-- The lint messages of `process_file`'s whitespace checks, in
emission order. -/
def lintMsgs (t : Text) : List String :=
  (if mixedIndentEmitted t then
    ["Mixed tabs and spaces in leading indentation (file-level)."] else []) ++
  (if 2 < (indentWidthItems t).length then
    ["Inconsistent indentation widths detected (common=" ++
      toString (mostCommonWidth (indentWidthItems t)) ++ ")."] else [])

/-! ## The per-file pipeline -/

/-- Report format of `--report`. -/
inductive ReportFormat where
  | text
  | json
deriving DecidableEq

/-- The argparse result: `--fix`/`--no-fix` (default `false`),
`--strict`, `--secure`, `--report`. -/
structure Args where
  fix : Bool
  strict : Bool
  secure : Bool
  report : ReportFormat

/-- External services of the pipeline: availability flags for the
optional libraries and oracles for their calls and for `ast.parse`
(CPython's parser is not part of the repository; `Except.error`
models a raised exception). -/
structure Env where
  haveBlack : Bool
  haveLibcst : Bool
  blackFormat : Text → Except String Text
  astParse : Text → Except String Ast
  cstRename : Text → List (String × String) → Except String Text

/-- The fallback branch of the formatting stage: the normalized text
is adopted only when the normalizer reported messages. -/
def fallbackText (t : Text) : Text :=
  if (normalizeWhitespace t).2 ≠ [] then (normalizeWhitespace t).1 else t

/-- Text after the formatting stage of `process_file` (black when
available, else the fallback normalizer; analysis-only mode leaves
the text alone). -/
def formatText (env : Env) (args : Args) (t : Text) : Text :=
  if args.fix then
    if env.haveBlack then
      match env.blackFormat t with
      | .ok n => n
      | .error _ => t
    else fallbackText t
  else t

/-- Messages of the formatting stage. -/
def formatStageMsgs (env : Env) (args : Args) (t : Text) : List String :=
  if args.fix then
    if env.haveBlack then
      match env.blackFormat t with
      | .ok n => if n ≠ t then ["Formatted with black."] else []
      | .error e => ["Black failed: " ++ e]
    else (normalizeWhitespace t).2
  else []

/-- The `formatted` flag after the formatting stage. -/
def formattedFlag1 (env : Env) (args : Args) (t : Text) : Bool :=
  if args.fix then
    if env.haveBlack then
      match env.blackFormat t with
      | .ok n => n != t
      | .error _ => false
    else !(normalizeWhitespace t).2.isEmpty
  else false

/-- Text after the unused-import removal stage. -/
def afterImportsText (args : Args) (t1 : Text) (tree : Ast) : Text :=
  if args.fix ∧ detectUnusedImports tree ≠ [] then
    removeUnusedImportsText t1 (detectUnusedImports tree)
  else t1

/-- Text after the rename stage: in fix mode with a non-empty rename
set and libcst available, the result of the rewrite call is adopted
as-is when the call returns, and the input text is kept when the
call raises.  No re-parse of the rewritten text occurs anywhere. -/
def afterRenameText (env : Env) (args : Args) (t2 : Text)
    (typos : List (String × String)) : Text :=
  if args.fix ∧ typos ≠ [] ∧ env.haveLibcst then
    match env.cstRename t2 typos with
    | .ok n => n
    | .error _ => t2
  else t2

/-- Text after the final black pass. -/
def afterFinalBlackText (env : Env) (args : Args) (t3 : Text) : Text :=
  if args.fix ∧ env.haveBlack then
    match env.blackFormat t3 with
    | .ok n => n
    | .error _ => t3
  else t3

/-- The per-file result dictionary of `process_file`. -/
structure PResult where
  formatted : Bool
  formatMessages : List String
  lintMessages : List String
  renamesSuggested : List (String × String)
  renamesApplied : List (String × String)
  unusedImports : List String
  errors : List String

/-- `process_file(path, args)`: returns the result record and the
on-disk content after the call (`write_file` runs exactly when fix
mode is on and the final text differs from the original; a parse
failure returns early, before any write). -/
def processFile (env : Env) (args : Args) (original : Text) :
    PResult × Text :=
  let lint0 := lintMsgs original
  let t1 := formatText env args original
  match env.astParse t1 with
  | .error e =>
    ({ formatted := formattedFlag1 env args original
       formatMessages := formatStageMsgs env args original
       lintMessages := lint0
       renamesSuggested := []
       renamesApplied := []
       unusedImports := []
       errors := ["AST parse error: " ++ e] }, original)
  | .ok tree =>
    let unused := detectUnusedImports tree
    let t2 := afterImportsText args t1 tree
    let impMsgs :=
      if args.fix ∧ unused ≠ [] ∧ t2 ≠ t1 then
        ["Removed unused import(s): " ++ String.intercalate ", " unused ++
          " (heuristic)."]
      else []
    let typos := detectIdentifierTypos (collect tree)
    let t3 := afterRenameText env args t2 typos
    let renMsgs :=
      if args.fix ∧ typos ≠ [] ∧ env.haveLibcst then
        match env.cstRename t2 typos with
        | .ok _ => ["Applied " ++ toString typos.length ++
            " identifier rename(s) using libcst."]
        | .error _ => []
      else []
    let renErrs :=
      if args.fix ∧ typos ≠ [] ∧ env.haveLibcst then
        match env.cstRename t2 typos with
        | .ok _ => []
        | .error e => ["libcst rename failed: " ++ e]
      else []
    let applied :=
      if args.fix ∧ typos ≠ [] ∧ env.haveLibcst then
        match env.cstRename t2 typos with
        | .ok _ => typos
        | .error _ => []
      else []
    let lintExtra :=
      if args.fix ∧ typos ≠ [] ∧ env.haveLibcst = false then
        ["libcst not installed; suggested renames not applied. " ++
          "Install 'libcst' to auto-apply renames."]
      else []
    let t4 := afterFinalBlackText env args t3
    let finMsgs :=
      if args.fix ∧ env.haveBlack then
        match env.blackFormat t3 with
        | .ok n => if n ≠ t3 then ["Final pass: formatted with black."] else []
        | .error e => ["Black final pass failed: " ++ e]
      else []
    ({ formatted := formattedFlag1 env args original ||
        (args.fix && env.haveBlack &&
          (match env.blackFormat t3 with
           | .ok n => n != t3
           | .error _ => false))
       formatMessages := formatStageMsgs env args original ++ impMsgs ++
         renMsgs ++ finMsgs
       lintMessages := lint0 ++ lintExtra
       renamesSuggested := typos
       renamesApplied := applied
       unusedImports := unused
       errors := renErrs },
     if args.fix ∧ t4 ≠ original then t4 else original)

/-! ## Orchestration (`main`) -/

/-- Warnings counted by the text report: one per lint message. -/
def totalWarnings (results : List PResult) : Nat :=
  (results.map (fun r => r.lintMessages.length)).sum

/-- The process exit code of `main`, as a function of the contents of
the files found and the arguments: `1` when no file was found, else
`2` only when the text report runs with `--strict` and counted at
least one warning (the json branch prints and falls through to exit
code `0`). -/
def pymaxExitCode (env : Env) (args : Args) (inputs : List Text) : Nat :=
  if inputs = [] then 1
  else
    match args.report with
    | .json => 0
    | .text =>
      if args.strict ∧
          0 < totalWarnings (inputs.map (fun t => (processFile env args t).1))
      then 2 else 0

/-! ## Concrete instances used by the theorems

The parse oracles below map exactly the texts they are applied to, to
the trees CPython's `ast.parse` produces for them, and raise
(`SyntaxError`) elsewhere. -/

/-- Source `"value\nvalue\nvalu\n"`: three expression statements. -/
def srcValu : Text := "value\nvalue\nvalu\n".data

/-- The tree of `srcValu`. -/
def treeValu : Ast :=
  .module [.exprStmt (.name "value"), .exprStmt (.name "value"),
           .exprStmt (.name "valu")]

/-- Source with tab-indented and space-indented blocks. -/
def srcMixed : Text := "if a:\n\tb = 1\nif c:\n    d = 1\n".data

/-- The tree of `srcMixed` (the `if` statements appear as `other`
nodes; only names matter to the stages exercised on it). -/
def treeMixed : Ast :=
  .module [.other [.name "a", .assign [.name "b"] .const],
           .other [.name "c", .assign [.name "d"] .const]]

/-- Source with a partially unused multi-name from-import. -/
def srcFromImport : Text := "from os import path, sep\npath\n".data

/-- The tree of `srcFromImport`. -/
def treeFromImport : Ast :=
  .module [.importFrom (some "os") [("path", none), ("sep", none)],
           .exprStmt (.name "path")]

/-- Tree of `"import os"`. -/
def treeOsOnly : Ast := .module [.importStmt [("os", none)]]

/-- Tree of `"import os\nprint(os.getcwd())"`. -/
def treeOsUsed : Ast :=
  .module [.importStmt [("os", none)],
           .exprStmt (.call (.name "print")
             [.call (.attribute (.name "os") "getcwd") []])]

/-- Tree with a name occurring both as a plain reference (3 times)
and as an attribute name (2 times), e.g.
`"x\nx\nx\ny.x\ny.x\n"`. -/
def treePooled : Ast :=
  .module [.exprStmt (.name "x"), .exprStmt (.name "x"),
           .exprStmt (.name "x"),
           .exprStmt (.attribute (.name "y") "x"),
           .exprStmt (.attribute (.name "y") "x")]

/-- Fix-mode arguments (text report, not strict). -/
def argsFix : Args :=
  { fix := true, strict := false, secure := false, report := .text }

/-- Default analyze-only arguments. -/
def argsNoFix : Args :=
  { fix := false, strict := false, secure := false, report := .text }

/-- Strict arguments with the json report. -/
def argsStrictJson : Args :=
  { fix := false, strict := true, secure := false, report := .json }

/-- Strict arguments with the text report. -/
def argsStrictText : Args :=
  { fix := false, strict := true, secure := false, report := .text }

/-- Environment without black, with libcst, whose rewrite call
returns `"value value\n"` — a text that is not valid Python (two
names juxtaposed), so the parse oracle fails on it. -/
def envRenameBad : Env :=
  { haveBlack := false
    haveLibcst := true
    blackFormat := fun _ => .error "black not installed"
    astParse := fun t =>
      if t == srcValu then .ok treeValu else .error "invalid syntax"
    cstRename := fun _ _ => .ok "value value\n".data }

/-- Environment without black, with libcst, whose rewrite call
raises. -/
def envRenameRaise : Env :=
  { haveBlack := false
    haveLibcst := true
    blackFormat := fun _ => .error "black not installed"
    astParse := fun t =>
      if t == srcValu then .ok treeValu else .error "invalid syntax"
    cstRename := fun _ _ => .error "Syntax Error @ 1:1." }

/-- Environment without black or libcst for the `srcMixed` file. -/
def envMixed : Env :=
  { haveBlack := false
    haveLibcst := false
    blackFormat := fun _ => .error "black not installed"
    astParse := fun t =>
      if t == srcMixed then .ok treeMixed else .error "invalid syntax"
    cstRename := fun _ _ => .error "libcst not available" }

/-! ## Theorems for the claims -/

/-- C3: the fallback normalizer does NOT strip trailing spaces or
tabs.  `normalize_whitespace` applies `ln.rstrip("\r\n")` to lines
produced by `text.splitlines()`, which already carry no `"\r"`/`"\n"`,
so the strip is a no-op: on `"x \n"` the trailing space is kept and no
message is recorded, although the function's docstring ("trims
trailing whitespace") and the inline comment ("strip trailing
spaces") promise otherwise, as does the claim. -/
theorem pymax_trailing_ws_not_stripped :
    normalizeWhitespace "x \n".data = ("x \n".data, []) := by
  rfl

/-- C10: with fix mode off (the default), `process_file` never
writes: the on-disk content after the call is the original content,
whatever diagnostics, renames or unused imports were found and
whatever the external tools would do. -/
theorem pymax_nofix_never_writes (env : Env) (args : Args) (t : Text)
    (h : args.fix = false) : (processFile env args t).2 = t := by
  unfold processFile
  split
  · simp_all
  · simp_all
    split <;> rfl

/-- Witness for `pymax_nofix_never_writes` at a concrete run. -/
theorem pymax_nofix_never_writes_witness :
    (processFile envRenameBad argsNoFix srcValu).2 = srcValu :=
  pymax_nofix_never_writes envRenameBad argsNoFix srcValu rfl

/-- C6: an imported name is reported unused exactly when it never
occurs as a plain `Name` reference in the tree; on `"import os"`
alone, `os` is flagged, and with `print(os.getcwd())` it is not. -/
theorem pymax_unused_import_iff_unreferenced :
    (∀ (t : Ast) (imp : String), imp ∈ importsOf t →
      (imp ∈ detectUnusedImports t ↔ imp ∉ usedNamesOf t)) ∧
    detectUnusedImports treeOsOnly = ["os"] ∧
    detectUnusedImports treeOsUsed = [] := by
  refine ⟨fun t imp h => ?_, by decide, by decide⟩
  unfold detectUnusedImports
  simp [List.mem_filter, h]

/-- Witness for `pymax_unused_import_iff_unreferenced` at the
`"import os"` tree. -/
theorem pymax_unused_import_iff_unreferenced_witness :
    ("os" ∈ importsOf treeOsOnly) ∧
    ("os" ∈ detectUnusedImports treeOsOnly ↔
      "os" ∉ usedNamesOf treeOsOnly) :=
  ⟨by decide,
   pymax_unused_import_iff_unreferenced.1 treeOsOnly "os" (by decide)⟩

/-! ### Lemmas on the merged count table (C2) -/

lemma lookup_cons_pair (k : String) (v : Nat) (l : List (String × Nat))
    (n : String) :
    ((k, v) :: l).lookup n = if n = k then some v else l.lookup n := by
  by_cases h : n = k
  · subst h; simp [List.lookup]
  · have hb : (n == k) = false := by simp [h]
    simp [List.lookup, hb, h]

lemma mem_dedupFirstAux {α : Type} [DecidableEq α] (l : List α) :
    ∀ (seen : List α) (a : α),
      a ∈ dedupFirstAux seen l ↔ a ∈ l ∧ a ∉ seen := by
  induction l with
  | nil => intro seen a; simp [dedupFirstAux]
  | cons x xs ih =>
    intro seen a
    by_cases hx : x ∈ seen
    · rw [dedupFirstAux, if_pos hx, ih]
      constructor
      · rintro ⟨h1, h2⟩; exact ⟨List.mem_cons_of_mem _ h1, h2⟩
      · rintro ⟨h1, h2⟩
        rcases List.mem_cons.mp h1 with rfl | h1
        · exact absurd hx h2
        · exact ⟨h1, h2⟩
    · rw [dedupFirstAux, if_neg hx]
      constructor
      · intro h
        rcases List.mem_cons.mp h with rfl | h1
        · exact ⟨List.mem_cons_self _ _, hx⟩
        · rw [ih] at h1
          exact ⟨List.mem_cons_of_mem _ h1.1,
            fun hs => h1.2 (List.mem_cons_of_mem _ hs)⟩
      · rintro ⟨h1, h2⟩
        rcases List.mem_cons.mp h1 with rfl | h1
        · exact List.mem_cons_self _ _
        · by_cases hax : a = x
          · subst hax; exact List.mem_cons_self _ _
          · exact List.mem_cons_of_mem _ (by
              rw [ih]
              exact ⟨h1, fun hs => (List.mem_cons.mp hs).elim hax h2⟩)

lemma mem_dedupFirst {α : Type} [DecidableEq α] (l : List α) (a : α) :
    a ∈ dedupFirst l ↔ a ∈ l := by
  simp [dedupFirst, mem_dedupFirstAux]

lemma lookup_map_count (ks occ : List String) (n : String) :
    (ks.map (fun m => (m, occ.count m))).lookup n =
      if n ∈ ks then some (occ.count n) else none := by
  induction ks with
  | nil => simp
  | cons k ks ih =>
    rw [List.map_cons, lookup_cons_pair, ih]
    by_cases h : n = k
    · subst h; simp
    · simp [h, List.mem_cons]

lemma counterItems_lookup (occ : List String) (n : String) :
    (counterItems occ).lookup n =
      if occ.count n ≠ 0 then some (occ.count n) else none := by
  unfold counterItems
  rw [lookup_map_count]
  by_cases h : n ∈ occ
  · simp [mem_dedupFirst, h, List.count_eq_zero, h]
  · simp [mem_dedupFirst, h, List.count_eq_zero]

lemma lookup_append_pairs (l1 l2 : List (String × Nat)) (n : String) :
    (l1 ++ l2).lookup n =
      match l1.lookup n with
      | some v => some v
      | none => l2.lookup n := by
  induction l1 with
  | nil => simp
  | cons p l ih =>
    obtain ⟨k, v⟩ := p
    rw [List.cons_append, lookup_cons_pair, lookup_cons_pair]
    by_cases h : n = k
    · simp [h]
    · simp [h, ih]

lemma lookup_mapMerge (A B : List (String × Nat)) (n : String) :
    (A.map (fun p => (p.1, (B.lookup p.1).getD p.2))).lookup n =
      (A.lookup n).map (fun v => (B.lookup n).getD v) := by
  induction A with
  | nil => simp
  | cons p A ih =>
    obtain ⟨k, v⟩ := p
    rw [List.map_cons]
    show ((k, (B.lookup k).getD v) :: _).lookup n = _
    rw [lookup_cons_pair, lookup_cons_pair]
    by_cases h : n = k
    · subst h; simp
    · simp [h, ih]

lemma keys_no_contains_of_lookup_none (A : List (String × Nat))
    (n : String) (h : A.lookup n = none) :
    (A.map Prod.fst).contains n = false := by
  induction A with
  | nil => simp
  | cons p A ih =>
    obtain ⟨k, v⟩ := p
    rw [lookup_cons_pair] at h
    by_cases hk : n = k
    · simp [hk] at h
    · rw [if_neg hk] at h
      rw [List.map_cons, List.contains_cons, ih h]
      simp [hk]

lemma lookup_filter_of_keeps (B : List (String × Nat))
    (q : String × Nat → Bool) (n : String)
    (hq : ∀ p ∈ B, p.1 = n → q p = true) :
    (B.filter q).lookup n = B.lookup n := by
  induction B with
  | nil => simp
  | cons p B ih =>
    obtain ⟨k, v⟩ := p
    have ih2 := ih (fun p hp he => hq p (List.mem_cons_of_mem _ hp) he)
    by_cases h : n = k
    · subst h
      have hqp : q (n, v) = true := hq (n, v) (List.mem_cons_self _ _) rfl
      rw [List.filter_cons, if_pos hqp, lookup_cons_pair, lookup_cons_pair]
      simp
    · cases hqp : q (k, v) with
      | true =>
        rw [List.filter_cons, if_pos hqp, lookup_cons_pair,
          lookup_cons_pair, if_neg h, if_neg h, ih2]
      | false =>
        rw [List.filter_cons, if_neg (by simp [hqp]), lookup_cons_pair,
          if_neg h, ih2]

/-- C2 (amended): the count table the typo detector consults is the
Python dict merge `{**names, **attr_names}`, so for a name counted in
both namespaces the attribute count overrides (not adds to) the
plain count: the consulted count is the attribute count when it is
non-zero, else the plain count. -/
theorem pymax_merged_count_attr_overrides (c : Collector) (n : String) :
    typoCount c n =
      if c.attrOcc.count n ≠ 0 then c.attrOcc.count n
      else c.namesOcc.count n := by
  unfold typoCount allCountsOf dictMerge
  rw [lookup_append_pairs, lookup_mapMerge,
    counterItems_lookup c.namesOcc n, counterItems_lookup c.attrOcc n]
  by_cases hA : c.namesOcc.count n ≠ 0
  · rw [if_pos hA]
    by_cases hB : c.attrOcc.count n ≠ 0
    · simp [hB]
    · simp [hB]
  · rw [if_neg hA]
    have hnone : (counterItems c.namesOcc).lookup n = none := by
      rw [counterItems_lookup, if_neg hA]
    rw [show (Option.map
        (fun v => (if c.attrOcc.count n ≠ 0
          then some (c.attrOcc.count n) else none).getD v)
        (none : Option Nat)) = none from rfl]
    rw [lookup_filter_of_keeps _ _ n (fun p _ he => by
      simp only [he, keys_no_contains_of_lookup_none _ _ hnone]
      rfl)]
    rw [counterItems_lookup]
    by_cases hB : c.attrOcc.count n ≠ 0
    · simp [hB]
    · simp only [if_neg hB, Option.getD_none]
      omega

/-- C2 (counterexample): on a tree where `x` occurs 3 times as a
plain name and 2 times as an attribute name, the detector's count
for `x` is 2 (the attribute count overrides), not the pooled sum
5. -/
theorem pymax_pooled_count_not_sum_cex :
    typoCount (collect treePooled) "x" ≠
      (collect treePooled).namesOcc.count "x" +
        (collect treePooled).attrOcc.count "x" ∧
    typoCount (collect treePooled) "x" = 2 ∧
    (collect treePooled).namesOcc.count "x" = 3 ∧
    (collect treePooled).attrOcc.count "x" = 2 := by
  refine ⟨by decide, by decide, by decide, by decide⟩

/-! ### Lemmas on the line-based substitution (C4) -/

lemma joinNL_cons (x : Text) (xs : List Text) :
    joinNL (x :: xs) =
      x ++ (match xs with | [] => [] | _ :: _ => '\n' :: joinNL xs) := by
  cases xs <;> simp [joinNL]

lemma splitNL_ne_nil (t : Text) : splitNL t ≠ [] := by
  cases t with
  | nil => simp [splitNL]
  | cons c cs =>
    rw [splitNL]
    by_cases h : c = '\n'
    · simp [h]
    · simp only [if_neg h]
      cases splitNL cs <;> simp

lemma splitNL_no_nl (t : Text) : ∀ l ∈ splitNL t, '\n' ∉ l := by
  induction t with
  | nil => simp [splitNL]
  | cons c cs ih =>
    rw [splitNL]
    by_cases h : c = '\n'
    · simp only [if_pos h]
      intro l hl
      rcases List.mem_cons.mp hl with rfl | hl
      · simp
      · exact ih l hl
    · simp only [if_neg h]
      cases hs : splitNL cs with
      | nil => exact absurd hs (splitNL_ne_nil cs)
      | cons x xs =>
        intro l hl
        rcases List.mem_cons.mp hl with rfl | hl
        · intro hmem
          rcases List.mem_cons.mp hmem with rfl | hmem
          · exact h rfl
          · exact ih x (hs ▸ List.mem_cons_self _ _) hmem
        · exact ih l (hs ▸ List.mem_cons_of_mem _ hl)

lemma splitNL_of_no_nl (x : Text) (hx : '\n' ∉ x) : splitNL x = [x] := by
  induction x with
  | nil => rfl
  | cons c cs ih =>
    have hc : ¬ c = '\n' := fun h => hx (h ▸ List.mem_cons_self _ _)
    rw [splitNL, if_neg hc, ih (fun h => hx (List.mem_cons_of_mem _ h))]

lemma splitNL_append_nl (x : Text) (rest : Text) (hx : '\n' ∉ x) :
    splitNL (x ++ '\n' :: rest) = x :: splitNL rest := by
  induction x with
  | nil => simp [splitNL]
  | cons c cs ih =>
    have hc : ¬ c = '\n' := fun h => hx (h ▸ List.mem_cons_self _ _)
    rw [List.cons_append, splitNL, if_neg hc,
      ih (fun h => hx (List.mem_cons_of_mem _ h))]

lemma splitNL_joinNL (ls : List Text) (hne : ls ≠ [])
    (hnl : ∀ l ∈ ls, '\n' ∉ l) : splitNL (joinNL ls) = ls := by
  induction ls with
  | nil => exact absurd rfl hne
  | cons x xs ih =>
    cases xs with
    | nil => exact splitNL_of_no_nl x (hnl x (List.mem_cons_self _ _))
    | cons y ys =>
      rw [joinNL, splitNL_append_nl x _ (hnl x (List.mem_cons_self _ _)),
        ih (by simp) (fun l hl => hnl l (List.mem_cons_of_mem _ hl))]

lemma joinNL_splitNL (t : Text) : joinNL (splitNL t) = t := by
  induction t with
  | nil => rfl
  | cons c cs ih =>
    rw [splitNL]
    by_cases h : c = '\n'
    · rw [if_pos h]
      obtain ⟨l, ls, hls⟩ := List.exists_cons_of_ne_nil (splitNL_ne_nil cs)
      rw [hls, joinNL, h]
      rw [hls] at ih
      rw [ih]
      rfl
    · rw [if_neg h]
      obtain ⟨l, ls, hls⟩ := List.exists_cons_of_ne_nil (splitNL_ne_nil cs)
      rw [hls]
      rw [hls] at ih
      rw [joinNL_cons] at ih ⊢
      rw [List.cons_append, ih]

lemma firstSome_eq_some {f : Nat → Option Text} {ks : List Nat} {r : Text}
    (h : firstSome f ks = some r) : ∃ k ∈ ks, f k = some r := by
  induction ks with
  | nil => exact absurd h (by simp [firstSome])
  | cons k ks ih =>
    rw [firstSome] at h
    cases hf : f k with
    | some v =>
      rw [hf] at h
      exact ⟨k, List.mem_cons_self _ _, hf.trans h⟩
    | none =>
      rw [hf] at h
      obtain ⟨k2, hk2, hfk2⟩ := ih h
      exact ⟨k2, List.mem_cons_of_mem _ hk2, hfk2⟩

lemma lineDrop_head (t : Text) :
    lineDrop t = [] ∨ ∃ rs, lineDrop t = '\n' :: rs := by
  induction t with
  | nil => exact Or.inl rfl
  | cons c cs ih =>
    by_cases hc : c = '\n'
    · subst hc
      exact Or.inr ⟨cs, by simp [lineDrop]⟩
    · have hb : (c != '\n') = true := by simpa using hc
      simpa [lineDrop, List.dropWhile_cons, hb] using ih

lemma lineTake_no_nl (t : Text) : '\n' ∉ lineTake t := by
  intro hmem
  have := List.mem_takeWhile_imp hmem
  simp at this

lemma lineTake_append_lineDrop (t : Text) :
    lineTake t ++ lineDrop t = t := by
  induction t with
  | nil => rfl
  | cons c cs ih =>
    rw [lineTake, lineDrop, List.takeWhile_cons, List.dropWhile_cons]
    by_cases hb : (c != '\n') = true
    · rw [if_pos hb, if_pos hb, List.cons_append]
      exact congrArg (c :: ·) ih
    · rw [if_neg hb, if_neg hb, List.nil_append]

lemma tailEnd_suffix_nl {name : String} {d r : Text}
    (h : tailEnd name d = some r) :
    r <:+ d ∧ (r = [] ∨ ∃ rs, r = '\n' :: rs) := by
  obtain ⟨w, _, hfw⟩ := firstSome_eq_some h
  by_cases hcw : containsWord name (lineTake (d.drop w))
  · rw [if_pos hcw] at hfw
    have hr : r = lineDrop (d.drop w) := (Option.some.inj hfw).symm
    subst hr
    exact ⟨(List.dropWhile_suffix _).trans (List.drop_suffix _ _),
      lineDrop_head _⟩
  · rw [if_neg hcw] at hfw
    exact absurd hfw (by simp)

lemma plainEnd_suffix_nl (name : String) :
    ∀ m r, plainEnd name m = some r →
      r <:+ m ∧ (r = [] ∨ ∃ rs, r = '\n' :: rs) := by
  intro m r h
  rw [plainEnd] at h
  split at h
  · obtain ⟨hs, hh⟩ := tailEnd_suffix_nl h
    exact ⟨hs.trans (List.drop_suffix _ _), hh⟩
  · exact absurd h (by simp)

lemma fromEnd_suffix_nl (name : String) :
    ∀ m r, fromEnd name m = some r →
      r <:+ m ∧ (r = [] ∨ ∃ rs, r = '\n' :: rs) := by
  intro m r h
  rw [fromEnd] at h
  split at h
  · obtain ⟨w1, _, h1⟩ := firstSome_eq_some h
    obtain ⟨nn, _, h2⟩ := firstSome_eq_some h1
    obtain ⟨w2, _, h3⟩ := firstSome_eq_some h2
    split at h3
    · obtain ⟨hs, hh⟩ := tailEnd_suffix_nl h3
      refine ⟨hs.trans ?_, hh⟩
      exact (List.drop_suffix _ _).trans ((List.drop_suffix _ _).trans
        ((List.drop_suffix _ _).trans (List.drop_suffix _ _)))
    · exact absurd h3 (by simp)
  · exact absurd h (by simp)

lemma splitNL_append_nl_exists (a b : Text) :
    ∃ p, p ≠ [] ∧ splitNL (a ++ '\n' :: b) = p ++ splitNL b := by
  induction a with
  | nil =>
    refine ⟨[[]], by simp, ?_⟩
    rw [List.nil_append, splitNL, if_pos rfl]
    rfl
  | cons c cs ih =>
    obtain ⟨p, hp, hps⟩ := ih
    by_cases hc : c = '\n'
    · refine ⟨[] :: p, by simp, ?_⟩
      rw [List.cons_append, splitNL, if_pos hc, hps]
      rfl
    · obtain ⟨h0, p2, hp2⟩ := List.exists_cons_of_ne_nil hp
      refine ⟨(c :: h0) :: p2, by simp, ?_⟩
      rw [List.cons_append, splitNL, if_neg hc, hps, hp2]
      rfl

lemma filter_isEmpty_idem (l : List Text) :
    (l.filter (fun x => !x.isEmpty)).filter (fun x => !x.isEmpty) =
      l.filter (fun x => !x.isEmpty) := by
  induction l with
  | nil => rfl
  | cons x xs ih =>
    by_cases hx : x.isEmpty
    · simp [List.filter_cons, hx, ih]
    · simp [List.filter_cons, hx, ih]

lemma reSubM_filter_sublist (kend : Text → Option Text)
    (hk : ∀ m r, kend m = some r →
      r <:+ m ∧ (r = [] ∨ ∃ rs, r = '\n' :: rs))
    (fuel : Nat) :
    ∀ t : Text,
      List.Sublist
        ((splitNL (reSubM kend fuel t)).filter (fun l => !l.isEmpty))
        (splitNL t) := by
  induction fuel with
  | zero => exact fun t => List.filter_sublist _
  | succ fuel ih =>
    intro t
    rw [reSubM]
    cases hkm : kend (t.dropWhile isPySpace) with
    | some r =>
      obtain ⟨hsuff, hhead⟩ := hk _ _ hkm
      rcases hhead with rfl | ⟨rs, rfl⟩
      · show List.Sublist
            ((splitNL ([] : Text)).filter (fun l => !l.isEmpty)) (splitNL t)
        simp [splitNL]
      · show List.Sublist
            ((splitNL ('\n' :: reSubM kend fuel rs)).filter
              (fun l => !l.isEmpty)) (splitNL t)
        have hst : ('\n' :: rs) <:+ t :=
          hsuff.trans (List.dropWhile_suffix _)
        obtain ⟨t1, ht1⟩ := hst
        have hsp : splitNL ('\n' :: reSubM kend fuel rs) =
            [] :: splitNL (reSubM kend fuel rs) := by
          rw [splitNL, if_pos rfl]
        rw [hsp, List.filter_cons]
        have hfe : (!(List.isEmpty ([] : Text))) = false := rfl
        rw [hfe, if_neg (by simp)]
        obtain ⟨p, hp, hps⟩ := splitNL_append_nl_exists t1 rs
        rw [← ht1, hps]
        have hbase : List.Sublist (splitNL rs) (p ++ splitNL rs) := by
          simp
        exact (ih rs).trans hbase
    | none =>
      cases hld : lineDrop t with
      | nil =>
        show List.Sublist ((splitNL t).filter (fun l => !l.isEmpty))
          (splitNL t)
        exact List.filter_sublist _
      | cons c rs =>
        have hc : c = '\n' := by
          rcases lineDrop_head t with h | ⟨rs2, h⟩
          · rw [hld] at h
            exact absurd h (by simp)
          · rw [hld] at h
            injection h with h1 h2
        subst hc
        show List.Sublist
            ((splitNL (lineTake t ++ '\n' :: reSubM kend fuel rs)).filter
              (fun l => !l.isEmpty)) (splitNL t)
        have h0 := lineTake_append_lineDrop t
        rw [hld] at h0
        have hsp2 : splitNL t = lineTake t :: splitNL rs := by
          conv_lhs => rw [← h0]
          exact splitNL_append_nl _ _ (lineTake_no_nl t)
        rw [splitNL_append_nl _ _ (lineTake_no_nl t), hsp2,
          List.filter_cons]
        by_cases he : (!(lineTake t).isEmpty) = true
        · rw [if_pos he]
          exact (ih rs).cons₂ _
        · rw [if_neg he]
          exact (ih rs).cons _

lemma reSub_filter_sublist (kend : Text → Option Text)
    (hk : ∀ m r, kend m = some r →
      r <:+ m ∧ (r = [] ∨ ∃ rs, r = '\n' :: rs))
    (t : Text) :
    List.Sublist ((splitNL (reSub kend t)).filter (fun l => !l.isEmpty))
      (splitNL t) :=
  reSubM_filter_sublist kend hk _ t

/-- C4 (amended): fix-mode import removal never narrows a statement.
Every non-blank line of the removal's output is one of the original
lines, unchanged and in their original order (the non-empty output
lines form a sublist of the input's lines): each regex match is
erased whole, so a multi-name import statement matched because of one
unused name disappears entirely — still-used names included — and the
erased span (which can also cover preceding blank lines, or several
physical lines joined by the pattern's newline-crossing `\s+`) leaves
at most an empty line before the surviving match-final newline. -/
theorem pymax_import_removal_no_narrowing (ns : List String) (t : Text) :
    List.Sublist
      ((splitNL (removeUnusedImportsText t ns)).filter
        (fun l => !l.isEmpty))
      (splitNL t) := by
  induction ns generalizing t with
  | nil => exact List.filter_sublist _
  | cons nm ns ih =>
    have hstep : removeUnusedImportsText t (nm :: ns) =
        removeUnusedImportsText
          (reSub (plainEnd nm) (reSub (fromEnd nm) t)) ns := rfl
    rw [hstep]
    have h1 := ih (reSub (plainEnd nm) (reSub (fromEnd nm) t))
    have h2 := reSub_filter_sublist (plainEnd nm) (plainEnd_suffix_nl nm)
      (reSub (fromEnd nm) t)
    have h3 := reSub_filter_sublist (fromEnd nm) (fromEnd_suffix_nl nm) t
    have h1f := h1.filter (fun l => !l.isEmpty)
    rw [filter_isEmpty_idem] at h1f
    have h4 := h1f.trans h2
    have h4f := h4.filter (fun l => !l.isEmpty)
    rw [filter_isEmpty_idem] at h4f
    exact h4f.trans h3

/-- C4 (counterexample): on `"from os import path, sep\npath\n"`,
where only `sep` is unused, the removal blanks the whole import line
(the first output line is empty), dropping the still-used `path`
binding instead of narrowing the statement to keep `path`. -/
theorem pymax_multiname_import_line_blanked_cex :
    detectUnusedImports treeFromImport = ["sep"] ∧
    removeUnusedImportsText srcFromImport
      (detectUnusedImports treeFromImport) = "\npath\n".data ∧
    (splitNL (removeUnusedImportsText srcFromImport
      (detectUnusedImports treeFromImport))).headD ['x'] = [] := by
  refine ⟨by decide, by decide, by decide⟩

/-! ### Mixed-indentation diagnostic (C7) -/

lemma mixed_ne_inconsistent (s : String) :
    "Mixed tabs and spaces in leading indentation (file-level)." ≠
      "Inconsistent indentation widths detected (common=" ++ s ++ ")." := by
  intro h
  have h2 : ("Inconsistent indentation widths detected (common=" ++ s ++
      ").").data.head? = some 'I' := by
    rw [String.data_append, String.data_append]
    rfl
  have h3 : ("Mixed tabs and spaces in leading indentation " ++
      "(file-level).").data.head? = some 'M' := rfl
  rw [show ("Mixed tabs and spaces in leading indentation " ++
      "(file-level).") = "Mixed tabs and spaces in leading indentation (file-level)." from rfl] at h3
  rw [h] at h3
  rw [h2] at h3
  simp at h3

/-- C7 (amended): the MixedIndentation diagnostic is emitted exactly
when some collected leading-whitespace run contains a tab and some
collected run contains a space (a single run such as `" \t"` can
serve as both; no run consisting only of tabs is required), it is
emitted at most once per file, and the file `"\tfoo\n    bar\n"`
yields it exactly once. -/
theorem pymax_mixed_indent_contains_iff :
    (∀ t : Text,
      (mixedIndentEmitted t = true ↔
        ((∃ p ∈ leadingPatternsOf t, '\t' ∈ p) ∧
         (∃ p ∈ leadingPatternsOf t, ' ' ∈ p))) ∧
      (lintMsgs t).count
        "Mixed tabs and spaces in leading indentation (file-level)." ≤ 1) ∧
    (lintMsgs "\tfoo\n    bar\n".data).count
      "Mixed tabs and spaces in leading indentation (file-level)." = 1 := by
  refine ⟨fun t => ⟨?_, ?_⟩, by decide⟩
  · unfold mixedIndentEmitted
    simp [List.any_eq_true]
  · have hne := mixed_ne_inconsistent
      (toString (mostCommonWidth (indentWidthItems t)))
    unfold lintMsgs
    rw [List.count_append]
    by_cases h1 : mixedIndentEmitted t = true <;>
      by_cases h2 : 2 < (indentWidthItems t).length <;>
        simp [h1, h2, List.count_cons, List.count_nil, hne, Ne.symm hne]

/-- C7 (counterexample): the file `" \ta\n"` has a single leading
run `" \t"`, which is not a run of only tabs, yet the diagnostic
fires — refuting the claim that a prefix using only tabs is
required. -/
theorem pymax_mixed_indent_single_pattern_cex :
    mixedIndentEmitted " \ta\n".data = true ∧
    (leadingPatternsOf " \ta\n".data).any
      (fun p => !p.isEmpty && p.all (· == '\t')) = false := by
  refine ⟨by decide, by decide⟩

/-! ### Exit codes (C8) -/

/-- C8 (amended): the exit code is `1` when no input files are
found; with files found it is `2` exactly when the report format is
`text`, strict mode is on and at least one warning was counted — in
the `json` report the strict check never runs and the exit code is
`0` even with warnings — and `0` otherwise. -/
theorem pymax_exit_code_spec (env : Env) (args : Args)
    (inputs : List Text) :
    (inputs = [] → pymaxExitCode env args inputs = 1) ∧
    (inputs ≠ [] →
      (pymaxExitCode env args inputs = 2 ↔
        args.report = .text ∧ args.strict = true ∧
        0 < totalWarnings
          (inputs.map (fun t => (processFile env args t).1))) ∧
      (pymaxExitCode env args inputs = 0 ↔
        ¬(args.report = .text ∧ args.strict = true ∧
          0 < totalWarnings
            (inputs.map (fun t => (processFile env args t).1))))) := by
  constructor
  · intro h; simp [pymaxExitCode, h]
  · intro h
    unfold pymaxExitCode
    rw [if_neg h]
    rcases hrep : args.report with _ | _
    · by_cases hs : args.strict = true ∧
        0 < totalWarnings (inputs.map (fun t => (processFile env args t).1))
      · rw [if_pos hs]; simp [hs]
      · rw [if_neg hs]; simp [hs]
    · simp

/-- Witness for `pymax_exit_code_spec`: the mixed-indentation file
under `--strict` with the text report exits with code 2. -/
theorem pymax_exit_code_spec_witness :
    pymaxExitCode envMixed argsStrictText [srcMixed] = 2 := by
  have h := (pymax_exit_code_spec envMixed argsStrictText [srcMixed]).2
    (by simp)
  exact h.1.mpr ⟨rfl, rfl, by decide⟩

/-- C8 (counterexample): the same strict run with `--report json`
counts a warning but exits 0, refuting "regardless of the chosen
report format". -/
theorem pymax_strict_json_exit_zero_cex :
    argsStrictJson.strict = true ∧
    0 < totalWarnings ([srcMixed].map
      (fun t => (processFile envMixed argsStrictJson t).1)) ∧
    pymaxExitCode envMixed argsStrictJson [srcMixed] = 0 := by
  refine ⟨rfl, by decide, rfl⟩

/-! ### Rename-stage atomicity (C1) -/

/-- C1 (amended): the rewriter performs no re-parse of the rewritten
text.  Only an exception raised by the rewrite call itself rejects
the edit: in that case the text from before the rename stage (after
normalization and import removal) is kept, and it is written whenever
it differs from the original.  A successfully returned rewrite is
accepted and written without any verification (see the
counterexample). -/
theorem pymax_rename_raise_keeps_text (env : Env) (args : Args)
    (t : Text) (tree : Ast) (e : String)
    (hfix : args.fix = true) (hb : env.haveBlack = false)
    (hl : env.haveLibcst = true)
    (hp : env.astParse (formatText env args t) = .ok tree)
    (hr : env.cstRename (afterImportsText args (formatText env args t) tree)
            (detectIdentifierTypos (collect tree)) = .error e) :
    (processFile env args t).2 =
      if afterImportsText args (formatText env args t) tree ≠ t
      then afterImportsText args (formatText env args t) tree
      else t := by
  simp only [processFile, hp]
  have ht3 : afterRenameText env args
      (afterImportsText args (formatText env args t) tree)
      (detectIdentifierTypos (collect tree)) =
      afterImportsText args (formatText env args t) tree := by
    unfold afterRenameText
    by_cases ht : detectIdentifierTypos (collect tree) = []
    · rw [if_neg]; simp [ht]
    · rw [if_pos ⟨hfix, ht, hl⟩, hr]
  have ht4 : afterFinalBlackText env args
      (afterImportsText args (formatText env args t) tree) =
      afterImportsText args (formatText env args t) tree := by
    unfold afterFinalBlackText
    rw [if_neg]; simp [hb]
  simp only [ht3, ht4, hfix]
  simp

/-- Witness for `pymax_rename_raise_keeps_text`: with a raising
rewrite call on `srcValu` (which needs no normalization and has no
unused import), the file is left byte-identical. -/
theorem pymax_rename_raise_keeps_text_witness :
    (processFile envRenameRaise argsFix srcValu).2 = srcValu := by
  have h := pymax_rename_raise_keeps_text envRenameRaise argsFix srcValu
    treeValu "Syntax Error @ 1:1." rfl rfl rfl rfl rfl
  have h2 : afterImportsText argsFix
      (formatText envRenameRaise argsFix srcValu) treeValu = srcValu := by
    decide
  rw [h, h2]
  simp

/-- C1 (counterexample): in fix mode, with the external rewrite call
returning `"value value\n"` (not parseable Python, and the parse
oracle indeed fails on it), `process_file` applies the rename set and
writes the rewritten text anyway: the post-rewrite parse fails but
the on-disk content is NOT the pre-run content — no re-parse guards
the write. -/
theorem pymax_rename_no_reparse_cex :
    (processFile envRenameBad argsFix srcValu).1.renamesApplied ≠ [] ∧
    envRenameBad.astParse (processFile envRenameBad argsFix srcValu).2 =
      .error "invalid syntax" ∧
    (processFile envRenameBad argsFix srcValu).2 ≠ srcValu := by
  refine ⟨by decide, rfl, by decide⟩

/-! ### Typo-proposal invariants (C5) -/

lemma foldl_preserve {α β : Type} (P : β → Prop) (f : β → α → β) :
    ∀ (l : List α) (b : β), P b →
      (∀ b' a, a ∈ l → P b' → P (f b' a)) → P (l.foldl f b) := by
  intro l
  induction l with
  | nil => intro b hb _; exact hb
  | cons x xs ih =>
    intro b hb hstep
    exact ih (f b x) (hstep b x (List.mem_cons_self _ _) hb)
      (fun b' a ha hb' => hstep b' a (List.mem_cons_of_mem _ ha) hb')

lemma mem_insertBy {α : Type} (le : α → α → Bool) (a x : α) :
    ∀ (l : List α), x ∈ insertBy le a l → x = a ∨ x ∈ l := by
  intro l
  induction l with
  | nil => intro h; simpa [insertBy] using h
  | cons b t ih =>
    intro h
    rw [insertBy] at h
    by_cases hle : le a b = true
    · rw [if_pos hle] at h
      rcases List.mem_cons.mp h with rfl | h2
      · exact Or.inl rfl
      · exact Or.inr h2
    · rw [if_neg hle] at h
      rcases List.mem_cons.mp h with rfl | h2
      · exact Or.inr (List.mem_cons_self _ _)
      · rcases ih h2 with h3 | h3
        · exact Or.inl h3
        · exact Or.inr (List.mem_cons_of_mem _ h3)

lemma mem_sortByBool {α : Type} (le : α → α → Bool) (l : List α) (x : α) :
    x ∈ sortByBool le l → x ∈ l := by
  unfold sortByBool
  induction l with
  | nil => intro h; simp at h
  | cons b t ih =>
    intro h
    rw [List.foldr_cons] at h
    rcases mem_insertBy le b x _ h with rfl | h2
    · exact List.mem_cons_self _ _
    · exact List.mem_cons_of_mem _ (ih h2)

lemma mem_upsert (l : List (String × String)) (k v : String)
    (x : String × String) :
    x ∈ upsert l k v → x = (k, v) ∨ x ∈ l := by
  induction l with
  | nil => intro h; simpa [upsert] using h
  | cons p t ih =>
    intro h
    rw [upsert] at h
    by_cases hp : p.1 = k
    · rw [if_pos hp] at h
      rcases List.mem_cons.mp h with rfl | h2
      · exact Or.inl rfl
      · exact Or.inr (List.mem_cons_of_mem _ h2)
    · rw [if_neg hp] at h
      rcases List.mem_cons.mp h with rfl | h2
      · exact Or.inr (List.mem_cons_self _ _)
      · rcases ih h2 with h3 | h3
        · exact Or.inl h3
        · exact Or.inr (List.mem_cons_of_mem _ h3)

lemma getCloseMatches_ratioGe (w : String) (ps : List String) (n : Nat)
    (cutoff : Nat × Nat) (m : String)
    (h : m ∈ getCloseMatches w ps n cutoff) :
    ratioGe (ratioPair m.data w.data) cutoff = true := by
  unfold getCloseMatches at h
  obtain ⟨p, hp, hpm⟩ := List.mem_map.mp h
  have hp3 := mem_sortByBool _ _ _ (List.mem_of_mem_take hp)
  obtain ⟨x, hx, hxe⟩ := List.mem_filterMap.mp hp3
  by_cases hr : ratioGe (ratioPair x.data w.data) cutoff = true
  · rw [if_pos hr] at hxe
    injection hxe with h4
    subst h4
    simp only at hpm
    subst hpm
    exact hr
  · rw [if_neg hr] at hxe
    exact absurd hxe (by simp)

lemma ratioPair_den_pos (a b : List Char) : 0 < (ratioPair a b).2 := by
  unfold ratioPair
  by_cases h : a.length + b.length = 0
  · simp [h]
  · simp only [if_neg h]
    omega

lemma ratioGe_le_ratioQ (a b : List Char)
    (h : ratioGe (ratioPair a b) typoCutoffPair = true) :
    typoCutoff ≤ ratioQ a b := by
  unfold ratioGe typoCutoffPair at h
  simp only [decide_eq_true_eq] at h
  unfold ratioQ typoCutoff
  rw [div_le_div_iff₀ (by norm_num)
    (by exact_mod_cast ratioPair_den_pos a b)]
  exact_mod_cast h

/-- C5: every emitted rename proposal `(from, to)` satisfies all the
stated invariants: the names differ, both have length at least 2,
both are `islower`, the difflib similarity of the pair reaches the
0.85 cutoff, and the to-name's count in the detector's (merged, see
C2) table strictly exceeds 1.5 times the from-name's. -/
theorem pymax_typo_proposal_invariants (c : Collector)
    (p : String × String) (hp : p ∈ detectIdentifierTypos c) :
    p.1 ≠ p.2 ∧ 2 ≤ p.1.length ∧ 2 ≤ p.2.length ∧
    pyIslower p.1 = true ∧ pyIslower p.2 = true ∧
    typoCutoff ≤ ratioQ p.2.data p.1.data ∧
    typoCount c p.1 * 3 < typoCount c p.2 * 2 := by
  unfold detectIdentifierTypos at hp
  refine foldl_preserve
    (fun cands => ∀ q ∈ cands,
      q.1 ≠ q.2 ∧ 2 ≤ q.1.length ∧ 2 ≤ q.2.length ∧
      pyIslower q.1 = true ∧ pyIslower q.2 = true ∧
      typoCutoff ≤ ratioQ q.2.data q.1.data ∧
      typoCount c q.1 * 3 < typoCount c q.2 * 2)
    _ _ _ (by simp) ?_ p hp
  intro cands nm _ hc
  unfold typoConsider
  refine foldl_preserve
    (fun cs => ∀ q ∈ cs,
      q.1 ≠ q.2 ∧ 2 ≤ q.1.length ∧ 2 ≤ q.2.length ∧
      pyIslower q.1 = true ∧ pyIslower q.2 = true ∧
      typoCutoff ≤ ratioQ q.2.data q.1.data ∧
      typoCount c q.1 * 3 < typoCount c q.2 * 2)
    _ _ cands hc ?_
  intro cs m hm hcs q hq
  by_cases h1 : m = nm
  · rw [if_pos h1] at hq; exact hcs q hq
  · rw [if_neg h1] at hq
    by_cases h2 : typoCount c nm * 3 < typoCount c m * 2
    · rw [if_pos h2] at hq
      by_cases h3 : nm.length ≤ 1 ∨ m.length ≤ 1
      · rw [if_pos h3] at hq; exact hcs q hq
      · rw [if_neg h3] at hq
        by_cases h4 : (pyIslower nm && pyIslower m) = true
        · rw [if_pos h4] at hq
          rcases mem_upsert _ _ _ _ hq with rfl | hq2
          · have h4' : pyIslower nm = true ∧ pyIslower m = true := by
              simpa using h4
            obtain ⟨h41, h42⟩ := h4'
            refine ⟨Ne.symm h1, ?_, ?_, h41, h42, ?_, h2⟩
            · show 2 ≤ nm.length
              omega
            · show 2 ≤ m.length
              omega
            · exact ratioGe_le_ratioQ _ _
                (getCloseMatches_ratioGe _ _ _ _ _ hm)
          · exact hcs q hq2
        · rw [if_neg h4] at hq; exact hcs q hq
    · rw [if_neg h2] at hq; exact hcs q hq

/-- Witness for `pymax_typo_proposal_invariants`: the proposal
`valu → value` emitted on `srcValu` satisfies the invariants. -/
theorem pymax_typo_proposal_invariants_witness :
    ("valu", "value") ∈ detectIdentifierTypos (collect treeValu) ∧
    ("valu" ≠ "value" ∧ 2 ≤ ("valu" : String).length ∧
     2 ≤ ("value" : String).length ∧ pyIslower "valu" = true ∧
     pyIslower "value" = true ∧
     typoCutoff ≤ ratioQ "value".data "valu".data ∧
     typoCount (collect treeValu) "valu" * 3 <
       typoCount (collect treeValu) "value" * 2) :=
  ⟨by decide, pymax_typo_proposal_invariants (collect treeValu)
    ("valu", "value") (by decide)⟩

/-! ### Idempotence of the fallback normalizer (C9) -/

/-- A text free of line-boundary characters — the shape of every
line `splitlines` produces. -/
def bfree (l : Text) : Prop := ∀ c ∈ l, isLineBoundary c = false

lemma aux_step_nb (c : Char) (cs acc : List Char)
    (hc : isLineBoundary c = false) :
    pySplitlinesAux (c :: cs) acc = pySplitlinesAux cs (c :: acc) := by
  cases cs with
  | nil => simp [pySplitlinesAux, hc]
  | cons d cs => simp [pySplitlinesAux, hc]

lemma aux_step_nl (cs acc : List Char) :
    pySplitlinesAux ('\n' :: cs) acc =
      acc.reverse :: pySplitlinesAux cs [] := by
  have h1 : isLineBoundary '\n' = true := rfl
  have h2 : (('\n' : Char) == '\r') = false := rfl
  cases cs with
  | nil => simp [pySplitlinesAux, h1]
  | cons d cs => simp [pySplitlinesAux, h1, h2]

lemma aux_consume (x : Text) :
    ∀ (r acc : List Char), bfree x →
      pySplitlinesAux (x ++ r) acc = pySplitlinesAux r (x.reverse ++ acc) := by
  induction x with
  | nil => intro r acc _; simp
  | cons c x ih =>
    intro r acc hx
    have hc : isLineBoundary c = false := hx c (List.mem_cons_self _ _)
    rw [List.cons_append, aux_step_nb c _ _ hc,
      ih r (c :: acc) (fun a ha => hx a (List.mem_cons_of_mem _ ha))]
    congr 1
    simp

lemma pySplitlines_of_bfree (x : Text) (hx : bfree x) :
    pySplitlines x = if x = [] then [] else [x] := by
  have h := aux_consume x [] [] hx
  rw [List.append_nil, List.append_nil] at h
  unfold pySplitlines
  rw [h]
  by_cases hxe : x = []
  · subst hxe; simp [pySplitlinesAux]
  · rw [if_neg hxe]
    have hrev : x.reverse.isEmpty = false := by simp [hxe]
    simp [pySplitlinesAux, hrev]

lemma pySplitlines_append_nl (x : Text) (r : List Char) (hx : bfree x) :
    pySplitlines (x ++ '\n' :: r) = x :: pySplitlines r := by
  unfold pySplitlines
  rw [aux_consume x _ [] hx, List.append_nil, aux_step_nl]
  simp

lemma splitlines_ne_nil (t : Text) (ht : t ≠ []) : pySplitlines t ≠ [] := by
  have main : ∀ (cs acc : List Char), cs ≠ [] ∨ acc ≠ [] →
      pySplitlinesAux cs acc ≠ [] := by
    intro cs acc
    induction cs, acc using pySplitlinesAux.induct with
    | case1 acc hacc =>
      intro h
      rcases h with h | h
      · exact absurd rfl h
      · exact absurd (List.isEmpty_iff.mp hacc) h
    | case2 acc hacc => intro _; simp [pySplitlinesAux, hacc]
    | case3 c acc hc => intro _; simp [pySplitlinesAux, hc]
    | case4 c acc hc => intro _; simp [pySplitlinesAux, hc]
    | case5 c d cs acc hc hcd ih =>
      intro _; simp [pySplitlinesAux, hc, hcd]
    | case6 c d cs acc hc hcd ih =>
      intro _
      simp only [pySplitlinesAux, if_pos hc, if_neg hcd]
      simp
    | case7 c d cs acc hc ih =>
      intro _
      have hc2 : isLineBoundary c = false := by
        simpa using hc
      rw [aux_step_nb c _ _ hc2]
      exact ih (Or.inr (by simp))
  exact main t [] (Or.inl ht)

lemma splitlines_bfree (t : Text) : ∀ l ∈ pySplitlines t, bfree l := by
  have main : ∀ (cs acc : List Char),
      (∀ a ∈ acc, isLineBoundary a = false) →
      ∀ l ∈ pySplitlinesAux cs acc, bfree l := by
    intro cs acc
    induction cs, acc using pySplitlinesAux.induct with
    | case1 acc hacc =>
      intro hs l hl
      simp [pySplitlinesAux, hacc] at hl
    | case2 acc hacc =>
      intro hs l hl
      simp only [pySplitlinesAux, if_neg hacc, List.mem_singleton] at hl
      subst hl
      intro a ha
      exact hs a (List.mem_reverse.mp ha)
    | case3 c acc hc =>
      intro hs l hl
      simp only [pySplitlinesAux, if_pos hc, List.mem_singleton] at hl
      subst hl
      intro a ha
      exact hs a (List.mem_reverse.mp ha)
    | case4 c acc hc =>
      intro hs l hl
      simp only [pySplitlinesAux, if_neg hc, List.mem_singleton] at hl
      subst hl
      intro a ha
      rcases List.mem_cons.mp (List.mem_reverse.mp ha) with rfl | h
      · simpa using hc
      · exact hs a h
    | case5 c d cs acc hc hcd ih =>
      intro hs l hl
      simp only [pySplitlinesAux, if_pos hc, if_pos hcd] at hl
      rcases List.mem_cons.mp hl with rfl | hl2
      · intro a ha; exact hs a (List.mem_reverse.mp ha)
      · exact ih (by simp) l hl2
    | case6 c d cs acc hc hcd ih =>
      intro hs l hl
      simp only [pySplitlinesAux, if_pos hc, if_neg hcd] at hl
      rcases List.mem_cons.mp hl with rfl | hl2
      · intro a ha; exact hs a (List.mem_reverse.mp ha)
      · exact ih (by simp) l hl2
    | case7 c d cs acc hc ih =>
      intro hs l hl
      have hc2 : isLineBoundary c = false := by simpa using hc
      rw [aux_step_nb c _ _ hc2] at hl
      refine ih ?_ l hl
      intro a ha
      rcases List.mem_cons.mp ha with rfl | h
      · exact hc2
      · exact hs a h
  exact main t [] (by simp)

/-- Drop a single trailing empty line, the discrepancy between
`splitlines` and `"\n".join`. -/
def stripLastEmpty : List Text → List Text
  | [] => []
  | [x] => if x = [] then [] else [x]
  | x :: y :: tl => x :: stripLastEmpty (y :: tl)

lemma splitlines_joinNL_nl (xs : List Text) (hne : xs ≠ [])
    (hbf : ∀ l ∈ xs, bfree l) :
    pySplitlines (joinNL xs ++ ['\n']) = xs := by
  induction xs with
  | nil => exact absurd rfl hne
  | cons x tl ih =>
    cases tl with
    | nil =>
      rw [joinNL, show (['\n'] : List Char) = '\n' :: [] from rfl,
        pySplitlines_append_nl x [] (hbf x (List.mem_cons_self _ _))]
      rfl
    | cons y tl2 =>
      rw [joinNL, List.append_assoc, List.cons_append,
        pySplitlines_append_nl x _ (hbf x (List.mem_cons_self _ _)),
        ih (by simp) (fun l hl => hbf l (List.mem_cons_of_mem _ hl))]

lemma splitlines_joinNL (xs : List Text) (hne : xs ≠ [])
    (hbf : ∀ l ∈ xs, bfree l) :
    pySplitlines (joinNL xs) = stripLastEmpty xs := by
  induction xs with
  | nil => exact absurd rfl hne
  | cons x tl ih =>
    cases tl with
    | nil =>
      rw [joinNL, pySplitlines_of_bfree x (hbf x (List.mem_cons_self _ _))]
      rfl
    | cons y tl2 =>
      rw [joinNL, pySplitlines_append_nl x _ (hbf x (List.mem_cons_self _ _)),
        ih (by simp) (fun l hl => hbf l (List.mem_cons_of_mem _ hl)),
        stripLastEmpty]

lemma stripLastEmpty_of_last_ne (xs : List Text) (x : Text)
    (h : xs.getLast? = some x) (hx : x ≠ []) :
    stripLastEmpty xs = xs := by
  induction xs with
  | nil => simp at h
  | cons a tl ih =>
    cases tl with
    | nil =>
      have ha : a = x := by simpa using h
      subst ha
      simp [stripLastEmpty, hx]
    | cons b tl2 =>
      rw [List.getLast?_cons_cons] at h
      rw [stripLastEmpty, ih h]

lemma stripLastEmpty_append_nil (xs : List Text) (hne : xs ≠ []) :
    stripLastEmpty (xs ++ [[]]) = xs := by
  induction xs with
  | nil => exact absurd rfl hne
  | cons a tl ih =>
    cases tl with
    | nil => simp [stripLastEmpty]
    | cons b tl2 =>
      rw [List.cons_append, List.cons_append, stripLastEmpty,
        ← List.cons_append, ih (by simp)]

lemma joinNL_append_single (xs : List Text) (x : Text) (hne : xs ≠ []) :
    joinNL (xs ++ [x]) = joinNL xs ++ '\n' :: x := by
  induction xs with
  | nil => exact absurd rfl hne
  | cons a tl ih =>
    cases tl with
    | nil => simp [joinNL]
    | cons b tl2 =>
      rw [List.cons_append, List.cons_append, joinNL, ← List.cons_append,
        ih (by simp), joinNL, List.append_assoc]
      rfl

lemma joinNL_getLast_aux (ps : List Text) (x : Text) (hx : x ≠ []) :
    joinNL (ps ++ [x]) ≠ [] ∧
      (joinNL (ps ++ [x])).getLast? = x.getLast? := by
  induction ps with
  | nil => exact ⟨by simpa [joinNL] using hx, by simp [joinNL]⟩
  | cons p ps ih =>
    have hne2 : ps ++ [x] ≠ [] := by simp
    obtain ⟨y, ys, hy⟩ := List.exists_cons_of_ne_nil hne2
    constructor
    · rw [List.cons_append, hy, joinNL]
      simp
    · rw [List.cons_append, hy, joinNL, ← hy,
        List.getLast?_append_of_ne_nil _ (by simp),
        show ('\n' :: joinNL (ps ++ [x])) = ['\n'] ++ joinNL (ps ++ [x])
          from rfl,
        List.getLast?_append_of_ne_nil _ ih.1]
      exact ih.2

lemma rstrip_bfree (l : Text) (hl : bfree l) : pyRstripCRLF l = l := by
  unfold pyRstripCRLF
  have hd : l.reverse.dropWhile (fun c => c == '\r' || c == '\n') =
      l.reverse := by
    cases hrev : l.reverse with
    | nil => rfl
    | cons c cs =>
      have hcmem : c ∈ l :=
        List.mem_reverse.mp (hrev ▸ List.mem_cons_self _ _)
      have hc := hl c hcmem
      have h1 : ¬ c = '\r' := fun h => by
        subst h; exact absurd hc (by decide)
      have h2 : ¬ c = '\n' := fun h => by
        subst h; exact absurd hc (by decide)
      rw [List.dropWhile_cons, if_neg (by simp [h1, h2])]
  rw [hd, List.reverse_reverse]

lemma gLine_of_head_ne_tab (l : Text) (hl : bfree l)
    (hh : l.head? ≠ some '\t') : gLine l = l := by
  unfold gLine
  rw [rstrip_bfree l hl]
  by_cases ha : (leadingWs l).any (· == '\t') = true
  · rw [if_pos ha]
    unfold expandLeadingTabs
    cases l with
    | nil => rfl
    | cons c cs =>
      have hc : ¬ c = '\t' := fun h => hh (by subst h; rfl)
      rw [List.takeWhile_cons, if_neg (by simp [hc]),
        List.dropWhile_cons, if_neg (by simp [hc])]
      simp
  · rw [if_neg ha]

lemma gLine_head_ne_tab (l : Text) (hl : bfree l) :
    (gLine l).head? ≠ some '\t' := by
  by_cases hh : l.head? = some '\t'
  · cases l with
    | nil => simp at hh
    | cons c cs =>
      have hc : c = '\t' := by simpa using hh
      subst hc
      unfold gLine
      rw [rstrip_bfree _ hl]
      have hany : (leadingWs ('\t' :: cs)).any (· == '\t') = true := by
        unfold leadingWs
        rw [List.takeWhile_cons, if_pos (by decide)]
        simp
      rw [if_pos hany]
      unfold expandLeadingTabs
      rw [List.takeWhile_cons, if_pos (by decide)]
      have h4 : 4 * (('\t' :: cs.takeWhile (· == '\t')).length) =
          (4 * (cs.takeWhile (· == '\t')).length + 3) + 1 := by
        simp [List.length_cons]
        ring
      rw [h4, List.replicate_succ, List.cons_append]
      simp
  · rw [gLine_of_head_ne_tab l hl hh]
    exact hh

lemma gLine_bfree (l : Text) (hl : bfree l) : bfree (gLine l) := by
  unfold gLine
  rw [rstrip_bfree l hl]
  by_cases ha : (leadingWs l).any (· == '\t') = true
  · rw [if_pos ha]
    unfold expandLeadingTabs
    intro a ha2
    rcases List.mem_append.mp ha2 with h | h
    · rw [List.eq_of_mem_replicate h]; decide
    · exact hl a ((List.dropWhile_sublist _).subset h)
  · rw [if_neg ha]; exact hl

lemma gLine_idem (l : Text) (hl : bfree l) : gLine (gLine l) = gLine l :=
  gLine_of_head_ne_tab _ (gLine_bfree l hl) (gLine_head_ne_tab l hl)

/-- C9: the fallback normalizer is idempotent on text: applying
`normalize_whitespace` to its own output returns that output
unchanged. -/
theorem pymax_normalizer_idempotent (t : Text) :
    (normalizeWhitespace (normalizeWhitespace t).1).1 =
      (normalizeWhitespace t).1 := by
  have htext : ∀ u : Text, (normalizeWhitespace u).1 =
      joinNL ((pySplitlines u).map gLine) ++
        (if u.getLast? == some '\n' then ['\n'] else []) := fun u => rfl
  by_cases ht : t = []
  · subst ht; rfl
  have hls_ne := splitlines_ne_nil t ht
  have hbf := splitlines_bfree t
  set xs := (pySplitlines t).map gLine with hxsdef
  have hxs_ne : xs ≠ [] := fun h => hls_ne (List.map_eq_nil_iff.mp h)
  have hxs_bf : ∀ l ∈ xs, bfree l := by
    intro l hl
    obtain ⟨l0, hl0, rfl⟩ := List.mem_map.mp hl
    exact gLine_bfree l0 (hbf l0 hl0)
  have hfixel : ∀ l ∈ xs, gLine l = l := by
    intro l hl
    obtain ⟨l0, hl0, rfl⟩ := List.mem_map.mp hl
    exact gLine_idem l0 (hbf l0 hl0)
  have hxs_fix : xs.map gLine = xs := by
    calc xs.map gLine = xs.map (fun l => l) := List.map_congr_left hfixel
      _ = xs := List.map_id' xs
  rw [htext t]
  by_cases hnl : (t.getLast? == some '\n') = true
  · rw [if_pos hnl, htext, splitlines_joinNL_nl xs hxs_ne hxs_bf, hxs_fix,
      List.getLast?_concat]
    simp
  · rw [if_neg hnl, List.append_nil]
    by_cases hs : joinNL xs = []
    · rw [hs]; rfl
    · rw [htext]
      rw [← hxsdef]
      obtain ⟨x, hxlast⟩ : ∃ x, xs.getLast? = some x := by
        cases hgl : xs.getLast? with
        | none => exact absurd (List.getLast?_eq_none_iff.mp hgl) hxs_ne
        | some y => exact ⟨y, rfl⟩
      have hxeq : x = xs.getLast hxs_ne := by
        have h2 := List.getLast?_eq_getLast xs hxs_ne
        rw [hxlast] at h2
        exact Option.some.inj h2
      have hsplit : xs.dropLast ++ [x] = xs := by
        rw [hxeq]; exact List.dropLast_append_getLast hxs_ne
      have hxmem : x ∈ xs := by
        rw [← hsplit]
        exact List.mem_append_right _ (List.mem_cons_self _ _)
      by_cases hx : x = []
      · subst hx
        have hdl_ne : xs.dropLast ≠ [] := by
          intro h
          rw [h] at hsplit
          rw [← hsplit] at hs
          simp [joinNL] at hs
        have hdl_bf : ∀ l ∈ xs.dropLast, bfree l :=
          fun l hl => hxs_bf l ((List.dropLast_sublist xs).subset hl)
        have hdl_fix : xs.dropLast.map gLine = xs.dropLast := by
          calc xs.dropLast.map gLine = xs.dropLast.map (fun l => l) :=
              List.map_congr_left (fun l hl =>
                hfixel l ((List.dropLast_sublist xs).subset hl))
            _ = xs.dropLast := List.map_id' _
        have hbf2 : ∀ l ∈ xs.dropLast ++ [[]], bfree l := by
          intro l hl
          rcases List.mem_append.mp hl with h | h
          · exact hdl_bf l h
          · rw [List.mem_singleton.mp h]
            intro a ha
            simp at ha
        have hj : joinNL (xs.dropLast ++ [[]]) =
            joinNL xs.dropLast ++ ['\n'] := by
          rw [joinNL_append_single _ _ hdl_ne]
        rw [← hsplit, splitlines_joinNL _ (by simp) hbf2,
          stripLastEmpty_append_nil _ hdl_ne, hdl_fix, hj,
          List.getLast?_concat]
        simp
      · have hstrip := stripLastEmpty_of_last_ne xs x hxlast hx
        have hxbf : bfree x := hxs_bf x hxmem
        have hjl := joinNL_getLast_aux xs.dropLast x hx
        rw [hsplit] at hjl
        have hlast : ((joinNL xs).getLast? == some '\n') = false := by
          rw [hjl.2]
          cases hxl : x.getLast? with
          | none => rfl
          | some c =>
            have hceq : c = x.getLast hx := by
              have h2 := List.getLast?_eq_getLast x hx
              rw [hxl] at h2
              exact Option.some.inj h2
            have hcmem : c ∈ x := hceq ▸ List.getLast_mem hx
            have hcb := hxbf c hcmem
            have hcn : ¬ c = '\n' := fun h => by
              subst h; exact absurd hcb (by decide)
            rw [show ((some c == some '\n') : Bool) = (c == '\n') from rfl]
            simp [hcn]
        rw [splitlines_joinNL xs hxs_ne hxs_bf, hstrip, hxs_fix, hlast]
        simp
